import Mathlib

/-!
Verification development for the `rl-first-principles` repository
(`src/distribution.rs`, `src/markov_process.rs`): a shallow embedding of the
distribution algebra and the finite Markov-process model, with theorems
settling the specification's claims.

Modelling conventions:
* `f64` is modelled by `F64`: an exact rational for finite values plus the
  special values `+inf`, `-inf`, `NaN` as explicit constructors.  The IEEE
  rules the source exercises (`0.0 / 0.0 = NaN`, `x / 0.0 = ±inf` for
  `x ≠ 0`, NaN propagation, `0 * inf = NaN`) are kept; rounding and signed
  zero are not modelled, so all finite arithmetic is exact.
* The hidden global random generator behind `sample(&self) -> T` is made
  explicit: a sampler is a state transformer `ρ → T × ρ` over an abstract
  randomness-source type `ρ`.  A method that draws k times threads the
  source through k sampler calls, in source order.
* Rust's `HashMap<&T, f64>` is modelled as an association list
  `List (T × F64)`; `HashMap::get` is first-match lookup.
-/

namespace Rlfp

-- ======================================================================
-- F64: model of the `f64` values the library manipulates
-- ======================================================================

/-- Model of an `f64` value: a finite value carried as an exact rational, or
one of the special values `+inf`, `-inf`, `NaN`. -/
inductive F64 where
  | val (q : ℚ)
  | posInf
  | negInf
  | nan
  deriving DecidableEq, Repr

namespace F64

/-- IEEE addition on the model: NaN propagates, opposite infinities give NaN,
an infinity absorbs finite summands, finite values add exactly. -/
def add : F64 → F64 → F64
  | nan, _ => nan
  | _, nan => nan
  | posInf, negInf => nan
  | negInf, posInf => nan
  | posInf, _ => posInf
  | _, posInf => posInf
  | negInf, _ => negInf
  | _, negInf => negInf
  | val a, val b => val (a + b)

/-- IEEE multiplication on the model: NaN propagates, `0 * ±inf = NaN`,
signs of infinities multiply, finite values multiply exactly. -/
def mul : F64 → F64 → F64
  | nan, _ => nan
  | _, nan => nan
  | posInf, posInf => posInf
  | posInf, negInf => negInf
  | negInf, posInf => negInf
  | negInf, negInf => posInf
  | posInf, val b => if 0 < b then posInf else if b < 0 then negInf else nan
  | val a, posInf => if 0 < a then posInf else if a < 0 then negInf else nan
  | negInf, val b => if 0 < b then negInf else if b < 0 then posInf else nan
  | val a, negInf => if 0 < a then negInf else if a < 0 then posInf else nan
  | val a, val b => val (a * b)

/-- IEEE division on the model: NaN propagates, `inf / inf = NaN`,
`±inf / finite` keeps a sign, `finite / ±inf = 0`, `0 / 0 = NaN`,
`x / 0 = ±inf` for finite `x ≠ 0`, and finite division is exact. -/
def div : F64 → F64 → F64
  | nan, _ => nan
  | _, nan => nan
  | posInf, posInf => nan
  | posInf, negInf => nan
  | negInf, posInf => nan
  | negInf, negInf => nan
  | posInf, val b => if b < 0 then negInf else posInf
  | negInf, val b => if b < 0 then posInf else negInf
  | val _, posInf => val 0
  | val _, negInf => val 0
  | val a, val b =>
      if b = 0 then (if a = 0 then nan else if 0 < a then posInf else negInf)
      else val (a / b)

instance : Add F64 := ⟨F64.add⟩

instance : Mul F64 := ⟨F64.mul⟩

instance : Div F64 := ⟨F64.div⟩

instance : Zero F64 := ⟨F64.val 0⟩

end F64

-- ======================================================================
-- Distribution algebra (src/distribution.rs)
-- ======================================================================

/-- A value implementing the `Distribution<T>` trait, reduced to its one
required method: `sample(&self) -> T`, with the hidden random generator made
explicit as a threaded state of type `ρ`. -/
structure Dist (ρ T : Type) where
  sample : ρ → T × ρ

/-- `DistIter<D, T>` (src/distribution.rs:73-79): owns a distribution and
yields samples from it. -/
structure DistIter (ρ T : Type) where
  dist : Dist ρ T

/-- `Distribution::sample_iter` (src/distribution.rs:14-22): wraps `self` by
value into a `DistIter`. -/
def Dist.sample_iter {ρ T : Type} (d : Dist ρ T) : DistIter ρ T :=
  ⟨d⟩

/-- `Iterator::next` for `DistIter` (src/distribution.rs:86-88):
`Some(self.dist.sample())`.  `next` takes `&mut self`, so the post-call
iterator value is returned explicitly; the body writes no field, so it is
`self` unchanged. -/
def DistIter.next {ρ T : Type} (it : DistIter ρ T) (r : ρ) :
    Option T × DistIter ρ T × ρ :=
  let tr := it.dist.sample r
  (some tr.1, it, tr.2)

/-- Iterated `DistIter.next`: the result of the n-th `next` call (0-based),
threading the iterator value and the randomness source through the calls. -/
def DistIter.nextN {ρ T : Type} (it : DistIter ρ T) (r : ρ) :
    ℕ → Option T × DistIter ρ T × ρ
  | 0 => it.next r
  | n + 1 =>
      let s := it.next r
      DistIter.nextN s.2.1 s.2.2 n

/-- `DistMap<D, T, F, U>` (src/distribution.rs:100-104): owns the source
distribution and the mapping closure. -/
structure DistMap (ρ T U : Type) where
  dist : Dist ρ T
  func : T → U

/-- `Distribution::map` (src/distribution.rs:28-38): stores `self` and `f`
into a `DistMap`. -/
def Dist.map {ρ T U : Type} (d : Dist ρ T) (f : T → U) : DistMap ρ T U :=
  ⟨d, f⟩

/-- `DistMap::sample` (src/distribution.rs:111-113):
`(self.func)(self.dist.sample())`. -/
def DistMap.sample {ρ T U : Type} (m : DistMap ρ T U) (r : ρ) : U × ρ :=
  let tr := m.dist.sample r
  (m.func tr.1, tr.2)

/-- `DistMap::sample` with the post-call value of `self` returned explicitly:
the method takes `&self` and writes no field, so the returned `self` is the
receiver unchanged. -/
def DistMap.sampleS {ρ T U : Type} (m : DistMap ρ T U) (r : ρ) :
    U × DistMap ρ T U × ρ :=
  let tr := m.dist.sample r
  (m.func tr.1, m, tr.2)

/-- `SampledDist<D, T, F, U>` (src/distribution.rs:129-133): owns the source
distribution and a function producing a distribution from each outcome.
Note on fidelity: the Rust `apply` combinator declares its closure bound as
`Fn() -> X` (src/distribution.rs:44-49), but the `Distribution` impl for
`SampledDist` (src/distribution.rs:135-139) requires `F: Fn(T) -> X` and its
`sample` calls `(self.func)(self.dist.sample())`; only the `Fn(T) -> X`
instantiation has sampling behaviour, and that is what is embedded. -/
structure SampledDist (ρ T U : Type) where
  dist : Dist ρ T
  func : T → Dist ρ U

/-- `Distribution::apply` (src/distribution.rs:44-56): stores `self` and `f`
into a `SampledDist` (see the fidelity note on `SampledDist`). -/
def Dist.apply {ρ T U : Type} (d : Dist ρ T) (f : T → Dist ρ U) :
    SampledDist ρ T U :=
  ⟨d, f⟩

/-- `SampledDist::sample` (src/distribution.rs:141-143):
`(self.func)(self.dist.sample()).sample()`. -/
def SampledDist.sample {ρ T U : Type} (s : SampledDist ρ T U) (r : ρ) :
    U × ρ :=
  let tr := s.dist.sample r
  (s.func tr.1).sample tr.2

/-- `SampledDist::sample` with the post-call value of `self` returned
explicitly: the method takes `&self` and writes no field, so the returned
`self` is the receiver unchanged. -/
def SampledDist.sampleS {ρ T U : Type} (s : SampledDist ρ T U) (r : ρ) :
    U × SampledDist ρ T U × ρ :=
  let tr := s.dist.sample r
  let ur := (s.func tr.1).sample tr.2
  (ur.1, s, ur.2)

/-- Monadic bind of the sampling state monad, written from the
specification's words: draw `t` from `d`, then draw from `f t`.  This is the
yardstick `SampledDist::sample` is compared against. -/
def Dist.bind {ρ T U : Type} (d : Dist ρ T) (f : T → Dist ρ U) : Dist ρ U :=
  ⟨fun r =>
    let tr := d.sample r
    (f tr.1).sample tr.2⟩

/-- Accumulating loop of the Monte-Carlo estimators
(src/distribution.rs:119 and 150): Rust's
`(0..sample_size).map(|_| f(&self.sample())).sum()` folds `0.0` through the
`sample_size` draws from left to right, one fresh draw per iteration. -/
def mcSumAux {ρ U : Type} (sample : ρ → U × ρ) (f : U → F64) :
    F64 → ρ → ℕ → F64 × ρ
  | acc, r, 0 => (acc, r)
  | acc, r, n + 1 =>
      let ur := sample r
      mcSumAux sample f (acc + f ur.1) ur.2 n

/-- `DistMap::expectation` (src/distribution.rs:115-121): Monte-Carlo sum of
`f` over `sample_size` draws of `self.sample()`, divided by
`sample_size as f64`.  The threaded randomness source is returned so the
number of draws is observable. -/
def DistMap.expectation {ρ T U : Type} (m : DistMap ρ T U) (f : U → F64)
    (sample_size : ℕ) (r : ρ) : F64 × ρ :=
  let sr := mcSumAux m.sample f 0 r sample_size
  (sr.1 / F64.val sample_size, sr.2)

/-- `SampledDist::expectation` (src/distribution.rs:146-152): same
Monte-Carlo scheme as `DistMap::expectation`. -/
def SampledDist.expectation {ρ T U : Type} (s : SampledDist ρ T U)
    (f : U → F64) (sample_size : ℕ) (r : ρ) : F64 × ρ :=
  let sr := mcSumAux s.sample f 0 r sample_size
  (sr.1 / F64.val sample_size, sr.2)

/-- Sequence of `n` fresh draws from a sampler, in draw order, with the
final state of the randomness source.  Specification-side notion used to
state that an estimator draws exactly `n` independent samples. -/
def drawN {ρ U : Type} (sample : ρ → U × ρ) : ℕ → ρ → List U × ρ
  | 0, r => ([], r)
  | n + 1, r =>
      let ur := sample r
      let lr := drawN sample n ur.2
      (ur.1 :: lr.1, lr.2)

-- ======================================================================
-- FiniteDistribution (src/distribution.rs:159-184)
-- ======================================================================

/-- First-match association-list lookup, the model of dereferencing
`HashMap<&T, f64>::get` (a `HashMap` holds each key at most once, so
first-match agrees with the map). -/
def lookupTable {T : Type} [DecidableEq T] : List (T × F64) → T → Option F64
  | [], _ => none
  | kv :: rest, o => if kv.1 = o then some kv.2 else lookupTable rest o

/-- A value implementing `FiniteDistribution<T>` (src/distribution.rs:159-165),
reduced to the data its default methods read: the table returned by
`table()`, modelled as an association list. -/
structure FiniteDist (T : Type) where
  table : List (T × F64)

/-- `FiniteDistribution::probability` (src/distribution.rs:168-173):
`self.table().get(outcome).map(|x| x.to_owned()).unwrap_or(0.0)`. -/
def FiniteDist.probability {T : Type} [DecidableEq T] (fd : FiniteDist T)
    (outcome : T) : F64 :=
  (lookupTable fd.table outcome).getD (F64.val 0)

/-- `FiniteDistribution::expectation` (src/distribution.rs:176-183):
`self.table().into_iter().map(|(&k, &v)| v * f(k)).sum()` — a left fold of
`+` over `0.0`, as Rust's `Sum for f64` — divided by `sample_size as f64`. -/
def FiniteDist.expectation {T : Type} (fd : FiniteDist T) (f : T → F64)
    (sample_size : ℕ) : F64 :=
  ((fd.table.map (fun kv => kv.2 * f kv.1)).foldl (fun a b => a + b) 0) /
    F64.val sample_size

/-- Exact weighted sum `Σ table[k] * f(k)` over the stored table, written
from the specification's words as a plain list sum of the per-entry terms. -/
def weightedSum {T : Type} (f : T → F64) (table : List (T × F64)) : F64 :=
  (table.map (fun kv => kv.2 * f kv.1)).sum

-- ======================================================================
-- State model (src/markov_process.rs:10-36)
-- ======================================================================

/-- `Terminal<S>` (src/markov_process.rs:11-13). -/
structure Terminal (S : Type) where
  state : S
  deriving DecidableEq, Repr

/-- `NonTerminal<S>` (src/markov_process.rs:16-18). -/
structure NonTerminal (S : Type) where
  state : S
  deriving DecidableEq, Repr

/-- `State<S>` (src/markov_process.rs:21-24). -/
inductive State (S : Type) where
  | terminal (t : Terminal S)
  | nonTerminal (nt : NonTerminal S)
  deriving DecidableEq, Repr

/-- `State::on_non_terminal` (src/markov_process.rs:27-35). -/
def State.on_non_terminal {S X : Type} (st : State S)
    (f : NonTerminal S → X) (default : X) : X :=
  match st with
  | State.terminal _ => default
  | State.nonTerminal nt => f nt

-- ======================================================================
-- FiniteMarkovProcess (src/markov_process.rs:65-116)
--
-- The bodies of `transition`, `simulate_iter`, `get_transition_matrix` and
-- `get_stationary_distribution` are all `todo!()` in the source; only their
-- declarations and the specification describe them.  The definitions below
-- are therefore modelled from the spec (marked so in their doc comments).
-- ======================================================================

/-- Modelled from the spec: the data of a `FiniteMarkovProcess` that
`simulate_iter` reads (the source body is `todo!()`,
src/markov_process.rs:100-106).  Transition distributions are over raw `S`
(the source's `transition_map` stores `X: FiniteDistribution<S>`), and a
drawn state is classified terminal or non-terminal by membership in the
stored non-terminal state set, here a Boolean predicate. -/
structure FMPModel (ρ S : Type) where
  isTerminal : S → Bool
  transition : S → Dist ρ S

/-- Modelled from the spec: wrap a raw drawn state into the `State<S>` sum
according to the process's terminal/non-terminal partition. -/
def FMPModel.classify {ρ S : Type} (mp : FMPModel ρ S) (s : S) : State S :=
  if mp.isTerminal s then State.terminal ⟨s⟩ else State.nonTerminal ⟨s⟩

/-- Modelled from the spec: one step of `simulate_iter`'s loop.  From a live
position (current raw state and randomness source): if the current state is
terminal the sequence has ended (`none`); otherwise draw the next state from
`transition(current)`. -/
def FMPModel.simStep {ρ S : Type} (mp : FMPModel ρ S) :
    Option (S × ρ) → Option (S × ρ)
  | none => none
  | some sr =>
      if mp.isTerminal sr.1 then none
      else some ((mp.transition sr.1).sample sr.2)

/-- Modelled from the spec: the position of `simulate_iter` after yielding
its `n`-th element (0-based): position 0 is an initial draw from
`start_state_dist`, and each later position is one `simStep`.  `none` means
the sequence has already ended. -/
def FMPModel.simNth {ρ S : Type} (mp : FMPModel ρ S) (start : Dist ρ S)
    (r : ρ) : ℕ → Option (S × ρ)
  | 0 => some (start.sample r)
  | n + 1 => mp.simStep (mp.simNth start r n)

/-- Modelled from the spec: the `n`-th element (0-based) of the lazy
sequence produced by `simulate_iter`, as a classified `State<S>`; `none`
past the end of a finite sequence. -/
def FMPModel.simulateElem {ρ S : Type} (mp : FMPModel ρ S) (start : Dist ρ S)
    (r : ρ) (n : ℕ) : Option (State S) :=
  (mp.simNth start r n).map (fun sr => mp.classify sr.1)

/-- Radius-free stationarity condition over the non-terminal states, written
from the spec: `π = πP` row-vector-wise, and `π` sums to 1. -/
def isStationary {n : ℕ} (P : Matrix (Fin n) (Fin n) ℚ) (v : Fin n → ℚ) :
    Prop :=
  Matrix.vecMul v P = v ∧ (∑ i, v i) = 1

/-- Modelled from the spec: `get_stationary_distribution` (the source body
is `todo!()`, src/markov_process.rs:83-85).  Per spec §4.5/§7 it returns the
unique `π` with `π = πP` and `Σπ = 1` over the non-terminal states when that
solution exists, and otherwise reports a "no unique stationary distribution"
failure rather than any default answer. -/
noncomputable def get_stationary_distribution {n : ℕ}
    (P : Matrix (Fin n) (Fin n) ℚ) : Except String (Fin n → ℚ) :=
  letI : Decidable (∃! v, isStationary P v) := Classical.propDecidable _
  if h : ∃! v, isStationary P v then Except.ok (Classical.choose h.exists)
  else Except.error "no unique stationary distribution"

-- ======================================================================
-- Concrete fixtures for witnesses and counterexamples
-- ======================================================================

/-- Degenerate sampler returning a fixed value and leaving the randomness
source untouched; used to build concrete test distributions. -/
def Dist.const {ρ T : Type} (t : T) : Dist ρ T :=
  ⟨fun r => (t, r)⟩

/-- Two-state swap chain: transition matrix `[[0,1],[1,0]]` over two
non-terminal states (spec §8's example). -/
def swapChain : Matrix (Fin 2) (Fin 2) ℚ :=
  Matrix.of ![![0, 1], ![1, 0]]

/-- Two-element chain of spec §8: state `false` is the sole non-terminal
state and moves to the absorbing terminal state `true` with probability 1. -/
def twoStateChain : FMPModel Unit Bool :=
  { isTerminal := fun s => s
    transition := fun _ => Dist.const true }

/-- Fair-coin table `{0 ↦ 1/2, 1 ↦ 1/2}`. -/
def coinFD : FiniteDist ℕ :=
  ⟨[(0, F64.val (1/2)), (1, F64.val (1/2))]⟩

/-- Deliberately ill-formed table: a negative weight and total mass 3. -/
def badFD : FiniteDist ℕ :=
  ⟨[(0, F64.val (-2)), (1, F64.val 5)]⟩

/-- One-point table of mass 1. -/
def oneFD : FiniteDist ℕ :=
  ⟨[(0, F64.val 1)]⟩

/-- Empty table. -/
def emptyFD : FiniteDist ℕ :=
  ⟨[]⟩

/-- One-point table of mass -1. -/
def negFD : FiniteDist ℕ :=
  ⟨[(0, F64.val (-1))]⟩

/-- Concrete `DistMap` over a degenerate source distribution. -/
def constDistMap : DistMap Unit ℕ ℕ :=
  ⟨Dist.const 0, fun t => t⟩

/-- Concrete `SampledDist` over degenerate distributions. -/
def constSampledDist : SampledDist Unit ℕ ℕ :=
  ⟨Dist.const 0, fun _ => Dist.const 1⟩

-- ======================================================================
-- Helper lemmas (shared)
-- ======================================================================

theorem F64.valAdd (a b : ℚ) : F64.val a + F64.val b = F64.val (a + b) :=
  rfl

theorem F64.valMul (a b : ℚ) : F64.val a * F64.val b = F64.val (a * b) :=
  rfl

theorem F64.divDef (x y : F64) : x / y = F64.div x y :=
  rfl

theorem F64.val_div_zero (q : ℚ) :
    F64.val q / F64.val 0 =
      if q = 0 then F64.nan else if 0 < q then F64.posInf else F64.negInf := by
  simp [F64.divDef, F64.div]

theorem F64.addZero (x : F64) : x + 0 = x := by
  cases x <;> first | rfl | exact congrArg F64.val (add_zero _)

theorem F64.zeroAdd (x : F64) : 0 + x = x := by
  cases x <;> first | rfl | exact congrArg F64.val (zero_add _)

theorem F64.addAssoc (x y z : F64) : x + y + z = x + (y + z) := by
  cases x <;> cases y <;> cases z <;>
    first | rfl | exact congrArg F64.val (add_assoc _ _ _)

theorem F64.divOne (x : F64) : x / F64.val 1 = x := by
  cases x <;> first | rfl | exact congrArg F64.val (div_one _)

/-- A left fold of `+` over a list of `F64` terms accumulates the list sum. -/
theorem foldl_add_eq (l : List F64) :
    ∀ acc : F64, l.foldl (fun a b => a + b) acc = acc + l.sum := by
  induction l with
  | nil => intro acc; simp [F64.addZero]
  | cons x xs ih => intro acc; rw [List.foldl_cons, ih, List.sum_cons, F64.addAssoc]

/-- The Monte-Carlo accumulation loop draws the same values, in the same
order and with the same final randomness-source state, as taking `n` fresh
draws and summing `f` over them. -/
theorem mcSumAux_eq_drawN {ρ U : Type} (sample : ρ → U × ρ) (f : U → F64) :
    ∀ (n : ℕ) (acc : F64) (r : ρ),
      mcSumAux sample f acc r n =
        (acc + ((drawN sample n r).1.map f).sum, (drawN sample n r).2) := by
  intro n
  induction n with
  | zero => intro acc r; simp [mcSumAux, drawN, F64.addZero]
  | succ n ih =>
      intro acc r
      simp only [mcSumAux, drawN, ih, List.map_cons, List.sum_cons, F64.addAssoc]

/-- `drawN` takes exactly `n` draws. -/
theorem drawN_length {ρ U : Type} (sample : ρ → U × ρ) :
    ∀ (n : ℕ) (r : ρ), (drawN sample n r).1.length = n := by
  intro n
  induction n with
  | zero => intro r; rfl
  | succ n ih => intro r; simp [drawN, ih]

/-- The exact finite-table estimator is the table's weighted sum divided by
`sample_size`, for every table and every `sample_size`. -/
theorem finiteExpectation_eq {T : Type} (fd : FiniteDist T) (f : T → F64)
    (n : ℕ) : fd.expectation f n = weightedSum f fd.table / F64.val n := by
  unfold FiniteDist.expectation weightedSum
  rw [foldl_add_eq, F64.zeroAdd]

-- ======================================================================
-- Claim theorems
-- ======================================================================

/-- Claim C1: sampling the derived distribution built by `D.apply(f)` is the
monadic bind — `SampledDist::sample` draws `t` from `D`, applies `f` to `t`,
then draws from the distribution `f(t)`; equivalently it agrees with the
state-monad bind of the algebra. -/
theorem C1_apply_sample_is_bind {ρ T U : Type} (d : Dist ρ T)
    (f : T → Dist ρ U) (r : ρ) :
    (d.apply f).sample r = (f (d.sample r).1).sample (d.sample r).2 ∧
    (d.apply f).sample r = (d.bind f).sample r :=
  ⟨rfl, rfl⟩

/-- Claim C2: for every finite-table distribution, `expectation(f, n)` with
`n ≥ 1` is the exact weighted sum `Σ table[k]·f(k)` divided by `n` — exact
rational division whenever the weighted sum is finite — and with `n = 1` it
is the analytically computed weighted sum itself, with no sampling. -/
theorem C2_finite_expectation_exact {T : Type} (fd : FiniteDist T)
    (f : T → F64) (n : ℕ) (h : 1 ≤ n) :
    fd.expectation f n = weightedSum f fd.table / F64.val n ∧
    (∀ q : ℚ, weightedSum f fd.table = F64.val q →
        fd.expectation f n = F64.val (q / n)) ∧
    fd.expectation f 1 = weightedSum f fd.table := by
  refine ⟨finiteExpectation_eq fd f n, ?_, ?_⟩
  · intro q hq
    rw [finiteExpectation_eq fd f n, hq]
    show F64.div (F64.val q) (F64.val n) = F64.val (q / n)
    have hn : ((n : ℚ)) ≠ 0 := Nat.cast_ne_zero.mpr (Nat.one_le_iff_ne_zero.mp h)
    simp [F64.div, hn]
  · rw [finiteExpectation_eq fd f 1, Nat.cast_one, F64.divOne]

/-- Witness for C2 on the fair coin: at `sample_size = 1` the estimator
returns the exact mean `1/2`. -/
theorem C2_witness :
    coinFD.expectation (fun (k : ℕ) => F64.val (k : ℚ)) 1 =
      weightedSum (fun (k : ℕ) => F64.val (k : ℚ)) coinFD.table ∧
    weightedSum (fun (k : ℕ) => F64.val (k : ℚ)) coinFD.table = F64.val (1/2) := by
  refine ⟨(C2_finite_expectation_exact coinFD (fun (k : ℕ) => F64.val (k : ℚ)) 1
    (by decide)).2.2, ?_⟩
  simp [weightedSum, coinFD, F64.valMul, F64.valAdd, F64.addZero]

/-- Claim C5: `probability(outcome)` is total — it returns the stored weight
for a key present in the table and `0.0` for an absent key; there is no
error path. -/
theorem C5_probability_total {T : Type} [DecidableEq T] (fd : FiniteDist T)
    (o : T) :
    (lookupTable fd.table o = none → fd.probability o = F64.val 0) ∧
    (∀ w, lookupTable fd.table o = some w → fd.probability o = w) := by
  constructor
  · intro h
    simp [FiniteDist.probability, h]
  · intro w h
    simp [FiniteDist.probability, h]

/-- Witness for C5 on the fair coin: key `2` is absent and yields `0.0`;
key `1` is present and yields its stored weight `1/2`. -/
theorem C5_witness :
    lookupTable coinFD.table 2 = none ∧ coinFD.probability 2 = F64.val 0 ∧
    lookupTable coinFD.table 1 = some (F64.val (1/2)) ∧
    coinFD.probability 1 = F64.val (1/2) :=
  ⟨rfl, (C5_probability_total coinFD 2).1 rfl,
   rfl, (C5_probability_total coinFD 1).2 (F64.val (1/2)) rfl⟩

/-- Claim C6: the `DistMap` and `SampledDist` estimators are the Monte-Carlo
estimator: each draws exactly `sample_size` fresh samples of the derived
distribution (the randomness source ends in the state after exactly those
draws) and returns the arithmetic mean of `f` over the drawn values. -/
theorem C6_monte_carlo_expectation {ρ T U : Type} (m : DistMap ρ T U)
    (s : SampledDist ρ T U) (f : U → F64) (n : ℕ) (r : ρ) :
    m.expectation f n r =
      (((drawN m.sample n r).1.map f).sum / F64.val n,
        (drawN m.sample n r).2) ∧
    s.expectation f n r =
      (((drawN s.sample n r).1.map f).sum / F64.val n,
        (drawN s.sample n r).2) ∧
    (drawN m.sample n r).1.length = n ∧
    (drawN s.sample n r).1.length = n := by
  refine ⟨?_, ?_, drawN_length m.sample n r, drawN_length s.sample n r⟩
  · unfold DistMap.expectation
    rw [mcSumAux_eq_drawN m.sample f n 0 r, F64.zeroAdd]
  · unfold SampledDist.expectation
    rw [mcSumAux_eq_drawN s.sample f n 0 r, F64.zeroAdd]

/-- Claim C7: `sample` never mutates the sampled distribution's own
parameters — for `DistMap`, `SampledDist` and `DistIter::next`, the
post-call value of the receiver is the receiver unchanged (wrapped source
distribution and function included), while the call still returns the drawn
value and advances only the randomness source. -/
theorem C7_sample_is_frame_pure {ρ T U : Type} (m : DistMap ρ T U)
    (s : SampledDist ρ T U) (it : DistIter ρ T) (r : ρ) :
    m.sampleS r = ((m.sample r).1, m, (m.sample r).2) ∧
    s.sampleS r = ((s.sample r).1, s, (s.sample r).2) ∧
    (it.next r).2.1 = it :=
  ⟨rfl, rfl, rfl⟩

/-- Every chain of `next` calls on a `DistIter` yields `some` and leaves the
iterator value unchanged, at every depth. -/
theorem DistIter.nextN_spec {ρ T : Type} :
    ∀ (n : ℕ) (it : DistIter ρ T) (r : ρ),
      (DistIter.nextN it r n).1.isSome = true ∧
      (DistIter.nextN it r n).2.1 = it := by
  intro n
  induction n with
  | zero => intro it r; exact ⟨rfl, rfl⟩
  | succ n ih =>
      intro it r
      simpa [DistIter.nextN, DistIter.next] using ih it ((it.dist.sample r).2)

/-- Claim C8: the iterator returned by `sample_iter` is infinite — every
`next` call returns `Some` of a fresh `sample()` of the owned distribution,
no `next` call at any depth returns `None`, and the iterator itself never
changes. -/
theorem C8_sample_iter_never_ends {ρ T : Type} (d : Dist ρ T) (r : ρ)
    (n : ℕ) :
    d.sample_iter.next r =
      (some (d.sample r).1, d.sample_iter, (d.sample r).2) ∧
    (DistIter.nextN d.sample_iter r n).1 ≠ none ∧
    (DistIter.nextN d.sample_iter r n).2.1 = d.sample_iter := by
  refine ⟨rfl, ?_, (DistIter.nextN_spec n d.sample_iter r).2⟩
  exact Option.ne_none_iff_isSome.mpr (DistIter.nextN_spec n d.sample_iter r).1

/-- Claim C10: no `FiniteDistribution` operation validates the table — for
every stored table, negative or unnormalized weights included, `probability`
returns exactly the stored weight of a present key and `expectation` is the
sum over exactly the stored entries with their stored weights, divided by
`sample_size`; no well-formedness hypothesis is needed anywhere. -/
theorem C10_no_table_validation {T : Type} [DecidableEq T]
    (fd : FiniteDist T) :
    (∀ o w, lookupTable fd.table o = some w → fd.probability o = w) ∧
    (∀ (f : T → F64) (n : ℕ),
        fd.expectation f n = weightedSum f fd.table / F64.val n) := by
  constructor
  · intro o w h
    simp [FiniteDist.probability, h]
  · intro f n
    exact finiteExpectation_eq fd f n

/-- Witness for C10 on a table with a negative weight and total mass 3: the
stored values flow through `probability` and `expectation` unchecked. -/
theorem C10_witness :
    badFD.probability 0 = F64.val (-2) ∧
    badFD.expectation (fun _ => F64.val 1) 1 = F64.val 3 := by
  constructor
  · exact (C10_no_table_validation badFD).1 0 (F64.val (-2)) rfl
  · rw [(C10_no_table_validation badFD).2 (fun _ => F64.val 1) 1]
    have hws : weightedSum (fun _ => F64.val 1) badFD.table = F64.val 3 := by
      simp [weightedSum, badFD, F64.valMul, F64.valAdd, F64.addZero]
      norm_num
    rw [hws, Nat.cast_one, F64.divOne]

/-- Once the simulated sequence has ended it stays ended. -/
theorem FMPModel.simNth_none_mono {ρ S : Type} (mp : FMPModel ρ S)
    (start : Dist ρ S) (r : ρ) (k : ℕ)
    (h : mp.simNth start r k = none) :
    ∀ m, mp.simNth start r (k + m) = none := by
  intro m
  induction m with
  | zero => simpa using h
  | succ m ih =>
      have hk : k + (m + 1) = (k + m) + 1 := by omega
      rw [hk]
      show mp.simStep (mp.simNth start r (k + m)) = none
      rw [ih]
      rfl

/-- Claim C4 (modelled from the spec; the source body of `simulate_iter` is
`todo!()`): the sequence starts with a state drawn from `start_state_dist`;
while the current state is non-terminal the next element is drawn from
`transition(current)`; a terminal element is the final one — every later
position is past the end; and if no produced state is ever terminal, every
position of the sequence is occupied. -/
theorem C4_simulate_iter_shape {ρ S : Type} (mp : FMPModel ρ S)
    (start : Dist ρ S) (r : ρ) :
    mp.simulateElem start r 0 = some (mp.classify (start.sample r).1) ∧
    (∀ n s r₁, mp.simNth start r n = some (s, r₁) →
        mp.isTerminal s = false →
        mp.simNth start r (n + 1) = some ((mp.transition s).sample r₁)) ∧
    (∀ n s r₁, mp.simNth start r n = some (s, r₁) →
        mp.isTerminal s = true →
        ∀ m, mp.simNth start r (n + 1 + m) = none) ∧
    ((∀ n s r₁, mp.simNth start r n = some (s, r₁) →
        mp.isTerminal s = false) →
      ∀ n, (mp.simulateElem start r n).isSome = true) := by
  refine ⟨rfl, ?_, ?_, ?_⟩
  · intro n s r₁ hs hnt
    show mp.simStep (mp.simNth start r n) = _
    rw [hs]
    simp [FMPModel.simStep, hnt]
  · intro n s r₁ hs ht
    apply FMPModel.simNth_none_mono
    show mp.simStep (mp.simNth start r n) = none
    rw [hs]
    simp [FMPModel.simStep, ht]
  · intro hall n
    induction n with
    | zero => rfl
    | succ n ih =>
        have h1 : (mp.simNth start r n).isSome = true := by
          unfold FMPModel.simulateElem at ih
          simpa using ih
        obtain ⟨p, hp⟩ := Option.isSome_iff_exists.mp h1
        have hnt : mp.isTerminal p.1 = false :=
          hall n p.1 p.2 (by simpa using hp)
        have hstep : mp.simNth start r (n + 1) =
            some ((mp.transition p.1).sample p.2) := by
          show mp.simStep (mp.simNth start r n) = _
          rw [hp]
          simp [FMPModel.simStep, hnt]
        unfold FMPModel.simulateElem
        rw [hstep]
        rfl

/-- Witness for C4 on the two-element chain of spec §8: the sequence is
exactly the non-terminal start state, then the terminal state, then ends. -/
theorem C4_witness :
    twoStateChain.simulateElem (Dist.const false) () 0 =
      some (State.nonTerminal ⟨false⟩) ∧
    twoStateChain.simulateElem (Dist.const false) () 1 =
      some (State.terminal ⟨true⟩) ∧
    twoStateChain.simulateElem (Dist.const false) () 2 = none := by
  have h := C4_simulate_iter_shape twoStateChain (Dist.const false) ()
  have h0 : twoStateChain.simNth (Dist.const false) () 0 =
      some (false, ()) := rfl
  have h1 : twoStateChain.simNth (Dist.const false) () 1 =
      some (true, ()) := h.2.1 0 false () h0 rfl
  have h2 : twoStateChain.simNth (Dist.const false) () 2 = none :=
    h.2.2.1 1 true () h1 rfl 0
  refine ⟨?_, ?_, ?_⟩
  · rw [h.1]
    rfl
  · unfold FMPModel.simulateElem
    rw [h1]
    rfl
  · unfold FMPModel.simulateElem
    rw [h2]
    rfl

/-- Counterexample to C9 as stated: on a `FiniteDistribution` the
`sample_size = 0` division is weighted-sum `/ 0.0`, not `0.0 / 0.0` — at the
one-point table of mass `1.0` with `f = 1` it evaluates to `+inf`, which is
not NaN. -/
theorem C9_counterexample :
    oneFD.expectation (fun _ => F64.val 1) 0 = F64.posInf ∧
    F64.posInf ≠ F64.nan := by
  constructor
  · rw [finiteExpectation_eq]
    have hws : weightedSum (fun _ => F64.val 1) oneFD.table = F64.val 1 := by
      simp [weightedSum, oneFD, F64.valMul, F64.valAdd, F64.addZero]
    rw [hws, Nat.cast_zero, F64.val_div_zero]
    norm_num
  · simp

/-- Claim C9 as amended: with `sample_size = 0` the Monte-Carlo estimators
of `DistMap` and `SampledDist` evaluate `0.0 / 0.0`, return NaN and draw no
sample (the randomness source is untouched); the `FiniteDistribution`
estimator divides its exact weighted sum by `0.0`, which is NaN exactly when
that sum is `0.0` and `±inf` when the sum is a nonzero finite value.  No
error is raised in any case. -/
theorem C9_amended_zero_sample_size {ρ T U V : Type} (m : DistMap ρ T U)
    (s : SampledDist ρ T U) (fd : FiniteDist V) (f : U → F64) (g : V → F64)
    (r : ρ) :
    m.expectation f 0 r = (F64.nan, r) ∧
    s.expectation f 0 r = (F64.nan, r) ∧
    (weightedSum g fd.table = F64.val 0 → fd.expectation g 0 = F64.nan) ∧
    (∀ q : ℚ, weightedSum g fd.table = F64.val q → 0 < q →
        fd.expectation g 0 = F64.posInf) ∧
    (∀ q : ℚ, weightedSum g fd.table = F64.val q → q < 0 →
        fd.expectation g 0 = F64.negInf) := by
  refine ⟨?_, ?_, ?_, ?_, ?_⟩
  · show (F64.val 0 / F64.val ((0 : ℕ) : ℚ), r) = (F64.nan, r)
    rw [Nat.cast_zero, F64.val_div_zero]
    norm_num
  · show (F64.val 0 / F64.val ((0 : ℕ) : ℚ), r) = (F64.nan, r)
    rw [Nat.cast_zero, F64.val_div_zero]
    norm_num
  · intro hq
    rw [finiteExpectation_eq, hq, Nat.cast_zero, F64.val_div_zero]
    norm_num
  · intro q hq hpos
    rw [finiteExpectation_eq, hq, Nat.cast_zero, F64.val_div_zero,
      if_neg hpos.ne', if_pos hpos]
  · intro q hq hneg
    rw [finiteExpectation_eq, hq, Nat.cast_zero, F64.val_div_zero,
      if_neg hneg.ne, if_neg (not_lt.mpr hneg.le)]

/-- Witness for the amended C9: NaN for both Monte-Carlo estimators and for
the empty table; `+inf` for total mass `1`; `-inf` for total mass `-1`. -/
theorem C9_witness :
    constDistMap.expectation (fun k => F64.val (k : ℚ)) 0 () =
      (F64.nan, ()) ∧
    constSampledDist.expectation (fun k => F64.val (k : ℚ)) 0 () =
      (F64.nan, ()) ∧
    emptyFD.expectation (fun _ => F64.val 1) 0 = F64.nan ∧
    oneFD.expectation (fun _ => F64.val 1) 0 = F64.posInf ∧
    negFD.expectation (fun _ => F64.val 1) 0 = F64.negInf := by
  refine ⟨?_, ?_, ?_, ?_, ?_⟩
  · exact (C9_amended_zero_sample_size constDistMap constSampledDist emptyFD
      (fun k => F64.val (k : ℚ)) (fun _ => F64.val 1) ()).1
  · exact (C9_amended_zero_sample_size constDistMap constSampledDist emptyFD
      (fun k => F64.val (k : ℚ)) (fun _ => F64.val 1) ()).2.1
  · exact (C9_amended_zero_sample_size constDistMap constSampledDist emptyFD
      (fun k => F64.val (k : ℚ)) (fun _ => F64.val 1) ()).2.2.1 rfl
  · exact (C9_amended_zero_sample_size constDistMap constSampledDist oneFD
      (fun k => F64.val (k : ℚ)) (fun _ => F64.val 1) ()).2.2.2.1 1
      (by simp [weightedSum, oneFD, F64.valMul, F64.valAdd, F64.addZero])
      (by norm_num)
  · exact (C9_amended_zero_sample_size constDistMap constSampledDist negFD
      (fun k => F64.val (k : ℚ)) (fun _ => F64.val 1) ()).2.2.2.2 (-1)
      (by simp [weightedSum, negFD, F64.valMul, F64.valAdd, F64.addZero])
      (by norm_num)

/-- Claim C3 (modelled from the spec; the source body of
`get_stationary_distribution` is `todo!()`): when a unique `v` with `v = vP`
and `Σv = 1` over the non-terminal states exists, the solver returns it, and
what it returns is that unique solution; otherwise it reports the
"no unique stationary distribution" failure rather than any default
answer. -/
theorem C3_stationary_solve {n : ℕ} (P : Matrix (Fin n) (Fin n) ℚ) :
    ((∃! v, isStationary P v) →
        ∃ v, get_stationary_distribution P = Except.ok v ∧
          isStationary P v ∧ ∀ w, isStationary P w → w = v) ∧
    (¬ (∃! v, isStationary P v) →
        get_stationary_distribution P =
          Except.error "no unique stationary distribution") := by
  constructor
  · intro h
    refine ⟨Classical.choose h.exists, ?_,
      Classical.choose_spec h.exists, ?_⟩
    · unfold get_stationary_distribution
      rw [dif_pos h]
    · intro w hw
      obtain ⟨v₀, hv₀, hu⟩ := h
      exact (hu w hw).trans (hu _ (Classical.choose_spec ⟨v₀, hv₀⟩)).symm
  · intro h
    unfold get_stationary_distribution
    rw [dif_neg h]

/-- Witness for C3 on the two-state swap chain `[[0,1],[1,0]]` of spec §8:
the solver succeeds and returns the uniform distribution `(1/2, 1/2)`. -/
theorem C3_witness :
    ∃ v, get_stationary_distribution swapChain = Except.ok v ∧
      isStationary swapChain v ∧ v 0 = 1/2 ∧ v 1 = 1/2 := by
  have hstat : isStationary swapChain ![1/2, 1/2] := by
    constructor
    · funext j
      fin_cases j <;>
        simp [swapChain, Matrix.vecMul, Matrix.dotProduct,
          Fin.sum_univ_two]
    · simp [Fin.sum_univ_two]
      norm_num
  have huniq : ∀ w, isStationary swapChain w → w = ![1/2, 1/2] := by
    intro w hw
    obtain ⟨hvec, hsum⟩ := hw
    have h0 : w 1 = w 0 := by
      have h1 := congrFun hvec 0
      simpa [swapChain, Matrix.vecMul, Matrix.dotProduct,
        Fin.sum_univ_two] using h1
    have hsum2 : w 0 + w 1 = 1 := by
      simpa [Fin.sum_univ_two] using hsum
    funext i
    fin_cases i
    · show w 0 = ![(1 : ℚ)/2, 1/2] 0
      simp
      linarith
    · show w 1 = ![(1 : ℚ)/2, 1/2] 1
      simp
      linarith
  obtain ⟨v, hok, hv, hu⟩ :=
    (C3_stationary_solve swapChain).1 ⟨![1/2, 1/2], hstat, huniq⟩
  have hveq : v = ![1/2, 1/2] := huniq v hv
  refine ⟨v, hok, hv, ?_, ?_⟩
  · rw [hveq]
    simp
  · rw [hveq]
    simp

end Rlfp
